import Mathlib

/-!
# Verification of the Timing-Error-Detector simulation

Shallow embedding of the repository's Python sources
(`TimingErrorDetector.py`, `PulseShaper.py`) into Lean.

Python floats are modelled as exact rationals (`ℚ`) where the code only
uses field arithmetic, and as reals (`ℝ`) where transcendental functions
(`sin`, `cos`, `π`, `sqrt`) appear.  Fallible operations (list indexing
that can raise `IndexError`, division that can raise
`ZeroDivisionError`) are modelled with `Option`.
-/

/-! ## Python primitives -/

/-- Python `int(x)` applied to a float: truncation toward zero. -/
def pyTrunc (q : ℚ) : ℤ := if 0 ≤ q then ⌊q⌋ else ⌈q⌉

/-- Python float modulo `x % y` (`y > 0` in all uses): `x - y*⌊x/y⌋`. -/
def pyMod (x y : ℚ) : ℚ := x - y * ⌊x / y⌋

/-- Python list index normalisation: `l[i]` accepts `-len ≤ i < len`,
negative indexes counting from the end; anything else raises. -/
def pyIdx (len : ℕ) (i : ℤ) : Option ℕ :=
  if 0 ≤ i ∧ i < (len : ℤ) then some i.toNat
  else if -(len : ℤ) ≤ i ∧ i < 0 then some ((len : ℤ) + i).toNat
  else none

/-- Python list read `l[i]` (`IndexError` modelled as `none`). -/
def pyGet (l : List ℚ) (i : ℤ) : Option ℚ :=
  (pyIdx l.length i).bind l.get?

/-- Model of `numpy.sign` on a real value. -/
def npSign (x : ℚ) : ℚ := if 0 < x then 1 else if x < 0 then -1 else 0

namespace TimingErrorDetector

/-- Model of `TimingErrorDetector.interpolator`: the body ignores the configured
`self.upsample` and hardcodes a local `upsample = 32`, calling
`scipy.signal.resample_poly(signal, 32, 1)`.  `resample_poly` (external
scipy) produces `ceil(n*up/down) = 32*n` output samples for an `n`-sample
input; only its length behaviour is needed here. -/
def interpolatorLen (signalLen : ℕ) : ℕ := 32 * signalLen

/-- The hardcoded local constant `upsample = 32` inside `interpolator`. -/
def interpolatorUpsample : ℕ := 32

/-- The interpolated-buffer index computed each iteration of `main`:
`offset_cur = i_cur*self.upsample + int(tau*self.upsample)`. -/
def offsetCur (i_cur upsample : ℕ) (tau : ℚ) : ℤ :=
  (i_cur : ℤ) * upsample + pyTrunc (tau * upsample)

/-- Model of `TimingErrorDetector.mueller_muller` (real-signal case:
`Re(a*conj(b)) = a*b` for real values). -/
def mueller_muller (val_cur val_prev symbol_prev : ℚ) : ℚ :=
  val_cur * symbol_prev - npSign val_cur * val_prev

/-- Model of `TimingErrorDetector.gardner` (real-signal case). -/
def gardner (val_cur val_prev val_middle : ℚ) : ℚ :=
  val_middle * (val_cur - val_prev)

/-- Model of `TimingErrorDetector.earlylategate`: `|early|**2 - |late|`. -/
def earlylategate (val_early val_late : ℚ) : ℚ :=
  |val_early| ^ 2 - |val_late|

/-- The selectable error equation of `main`. -/
inductive ErrorEq
  | mueller
  | gardnerEq
  | elg
deriving DecidableEq

/-- The mutable loop state of `TimingErrorDetector.main`. -/
structure LoopState where
  tau : ℚ
  v : ℚ
  symbol_prev : ℚ
  error : List ℚ
  offset : List ℚ
  symbols_pred : List ℚ
  out_signal : List ℚ
  i_cur : ℕ
deriving DecidableEq

/-- The error computed (and appended) by the selected branch of `main`'s
loop body.  `none` models a raised exception: an out-of-range read of the
interpolated buffer, `error[-1]` on an empty error list, or the
`ZeroDivisionError` of `sps / delta` with `delta = 0`. -/
def computeError (P : List ℚ) (upsample sps delta : ℕ) (eq : ErrorEq)
    (st : LoopState) (oc : ℤ) (val_cur val_prev : ℚ) : Option ℚ :=
  match eq with
  | .mueller => some (mueller_muller val_cur val_prev st.symbol_prev)
  | .gardnerEq =>
      (pyGet P (oc - pyTrunc ((sps * upsample : ℚ) / 2))).map
        (fun val_middle => -(gardner val_cur val_prev val_middle))
  | .elg =>
      if delta = 0 then none
      else
        let shift := pyTrunc (((sps : ℚ) / delta) * upsample)
        if (P.length : ℤ) < oc + shift then
          pyGet st.error (-1)
        else
          match pyGet P (oc - shift), pyGet P (oc + shift) with
          | some val_early, some val_late =>
              some (-(earlylategate val_early val_late))
          | _, _ => none

/-- Successful tail of one `main` loop iteration: symbol decision,
loop-filter update, modulo wrap, trace appends, index advance. -/
def mkNext (sps : ℕ) (gain Kp Ki : ℚ) (use_pi : Bool)
    (st : LoopState) (e val_cur : ℚ) : LoopState :=
  let symbol_cur := npSign val_cur
  let v' := if use_pi then st.v + Ki * e else st.v
  let tau' := if use_pi then st.tau + v' + Kp * e else st.tau + gain * e
  let tau'' := pyMod tau' sps
  { tau := tau''
    v := v'
    symbol_prev := symbol_cur
    error := st.error ++ [e]
    offset := st.offset ++ [tau'']
    symbols_pred := st.symbols_pred ++ [symbol_cur]
    out_signal := st.out_signal ++ [val_cur]
    i_cur := st.i_cur + sps }

/-- One iteration of the `while` loop body of `main`.  `none` models a
raised exception (`IndexError` reading the interpolated buffer, or
`ZeroDivisionError` at `tau %= sps` when `sps = 0`). -/
def step (P : List ℚ) (upsample sps : ℕ) (eq : ErrorEq)
    (gain Kp Ki : ℚ) (delta : ℕ) (use_pi : Bool)
    (st : LoopState) : Option LoopState :=
  if sps = 0 then none
  else
    let oc := offsetCur st.i_cur upsample st.tau
    (pyGet P oc).bind fun val_cur =>
      (pyGet P (oc - (sps : ℤ) * upsample)).bind fun val_prev =>
        (computeError P upsample sps delta eq st oc val_cur val_prev).map
          fun e => mkNext sps gain Kp Ki use_pi st e val_cur

/-- The `while i_cur < num_samples` loop of `main`, run with explicit
fuel (`num_samples` suffices whenever `sps ≥ 1`). -/
def mainLoop (P : List ℚ) (upsample num_samples sps : ℕ) (eq : ErrorEq)
    (gain Kp Ki : ℚ) (delta : ℕ) (use_pi : Bool) :
    ℕ → LoopState → Option LoopState
  | 0, st => if st.i_cur < num_samples then none else some st
  | fuel + 1, st =>
      if st.i_cur < num_samples then
        (step P upsample sps eq gain Kp Ki delta use_pi st).bind
          (mainLoop P upsample num_samples sps eq gain Kp Ki delta use_pi fuel)
      else some st

/-- Model of `TimingErrorDetector.main`.  `P` is `self.interpolated_pulse`,
`upsample` is `self.upsample`; returns
`(offset, error, symbols_pred, out_signal)`, or `none` when the Python
code raises. -/
def main (P : List ℚ) (upsample num_samples sps : ℕ) (eq : ErrorEq)
    (tau gain Kp Ki : ℚ) (delta : ℕ) (symbol_prev : ℚ) (use_pi : Bool) :
    Option (List ℚ × List ℚ × List ℚ × List ℚ) :=
  (pyGet P 0).bind fun first =>
    (mainLoop P upsample num_samples sps eq gain Kp Ki delta use_pi
        num_samples
        { tau := tau, v := 0, symbol_prev := symbol_prev, error := []
          offset := [], symbols_pred := [symbol_prev]
          out_signal := [first], i_cur := sps }).map
      fun st => (st.offset, st.error, st.symbols_pred, st.out_signal)

/-- Model of `np.sum(np.array(a) == b)` for the aligned shapes arising in
`results` (equal lengths, or one side empty after broadcasting a
size-one axis): the number of positionally equal pairs. -/
def countEq (a b : List ℚ) : ℕ :=
  (List.zipWith (fun x y => if x = y then (1 : ℕ) else 0) a b).sum

/-- numpy division used by `results`: an integer count divided by an
integer count.  Division by zero emits a runtime warning and yields NaN
rather than raising; NaN is modelled as `none`. -/
def npDivNan (a b : ℚ) : Option ℚ := if b = 0 then none else some (a / b)

/-- Model of `TimingErrorDetector.results` over the recorded `symbols_pred` and
`offset` traces.  Returns `(perc_correct, ber, final_offset)`; the outer
`Option` is the `IndexError` of `self.offset[-1]` on an empty trace, the
inner `Option ℚ` components are NaN-able numpy quotients. -/
def results (symbols_pred offset : List ℚ) (symbols : List ℚ)
    (keep_all : Bool) : Option (Option ℚ × Option ℚ × ℚ) :=
  let num_correct : ℕ :=
    if keep_all then countEq symbols_pred symbols
    else countEq (symbols_pred.drop 30) (symbols.drop 30)
  let num_symbols : ℕ :=
    if keep_all then symbols.length else (symbols.drop 30).length
  (offset.getLast?).map fun final_offset =>
    ((npDivNan (num_correct : ℚ) (num_symbols : ℚ)).map (fun q => q * 100),
     (npDivNan ((num_symbols : ℚ) - (num_correct : ℚ)) (num_symbols : ℚ)).map
       (fun q => q * 100),
     final_offset)

end TimingErrorDetector

/-! ## PulseShaper

Signals and kernels are real-valued here because the raised-cosine and
windowed-sinc constructions use `sin`, `cos` and `π`; the section is
noncomputable exactly because `ℝ` is, and concrete instances are
evaluated in proofs by `simp`/`norm_num`. -/

noncomputable section

/-- Zero-extended array read used by the convolution sum. -/
def aget (l : List ℝ) (i : ℤ) : ℝ := if 0 ≤ i then l.getD i.toNat 0 else 0

/-- Model of `np.convolve(a, v)` in full mode:
`out[i] = Σ_j v[j]·a[i-j]`, `len(out) = len(a) + len(v) - 1`. -/
def convolve (a v : List ℝ) : List ℝ :=
  (List.range (a.length + v.length - 1)).map
    fun (i : ℕ) =>
      ∑ j ∈ Finset.range v.length, v.getD j 0 * aget a ((i : ℤ) - (j : ℤ))

/-- Python slice-endpoint normalisation: negative endpoints count from
the end, and endpoints are clamped into `[0, len]`. -/
def pyBound (len : ℕ) (i : ℤ) : ℕ :=
  if i < 0 then ((len : ℤ) + i).toNat else min len i.toNat

/-- Python slice `l[s:e]` (unit stride). -/
def pySlice {α : Type} (l : List α) (s e : ℤ) : List α :=
  (l.take (pyBound l.length e)).drop (pyBound l.length s)

/-- Python `//` floor division on integers. -/
def pyFloorDiv (a b : ℤ) : ℤ := Int.fdiv a b

namespace PulseShaper

/-- One tap of `commpy.rcosfilter(N, alpha, Ts, Fs)` with `Fs = 1`
(`T_delta = 1`, `t = x - N/2`), transcribed from the library source:
`h(0) = 1`; at `t = ±Ts/(2α)` (for `α ≠ 0`) the singular value
`(π/4)·sinc(t/Ts)`; otherwise `sinc(t/Ts)·cos(παt/Ts)/(1-(2αt/Ts)²)`,
with `sinc(u) = sin(πu)/(πu)`. -/
def rcosfilterTap (N : ℕ) (alpha Ts : ℝ) (x : ℕ) : ℝ :=
  let t : ℝ := (x : ℝ) - (N : ℝ) / 2
  if t = 0 then 1
  else if alpha ≠ 0 ∧ t = Ts / (2 * alpha) then
    Real.pi / 4 * (Real.sin (Real.pi * t / Ts) / (Real.pi * t / Ts))
  else if alpha ≠ 0 ∧ t = -(Ts / (2 * alpha)) then
    Real.pi / 4 * (Real.sin (Real.pi * t / Ts) / (Real.pi * t / Ts))
  else
    Real.sin (Real.pi * t / Ts) / (Real.pi * t / Ts) *
      (Real.cos (Real.pi * alpha * t / Ts) / (1 - (2 * alpha * t / Ts) ^ 2))

/-- Model of `commpy.rcosfilter(N, alpha, Ts, 1)`: the `N` filter taps. -/
def rcosfilter (N : ℕ) (alpha Ts : ℝ) : List ℝ :=
  (List.range N).map (rcosfilterTap N alpha Ts)

/-- Model of `PulseShaper.createrc`: build `rc_taps + 1` taps and drop the first
(`raised_cosine[1:]`), leaving an odd-length symmetric kernel. -/
def createrc (rc_taps : ℕ) (rolloff sps : ℝ) : List ℝ :=
  (rcosfilter (rc_taps + 1) rolloff sps).tail

/-- Model of `PulseShaper.pulseshaping`: convolve with the raised cosine; unless
`keep_edges`, slice `[(rc_taps-1)//2 : -(rc_taps-1)//2]`. -/
def pulseshaping (rc_taps : ℕ) (raised_cosine pulses : List ℝ)
    (keep_edges : Bool) : List ℝ :=
  let pulse_shaped := convolve pulses raised_cosine
  if keep_edges then pulse_shaped
  else
    pySlice pulse_shaped (pyFloorDiv ((rc_taps : ℤ) - 1) 2)
      (pyFloorDiv (-((rc_taps : ℤ) - 1)) 2)

/-- Model of `np.sinc`: the normalised sinc, `sin(πx)/(πx)` with `sinc 0 = 1`. -/
def npsinc (x : ℝ) : ℝ :=
  if x = 0 then 1 else Real.sin (Real.pi * x) / (Real.pi * x)

/-- Model of `np.hamming(M)`: `0.54 - 0.46·cos(2πk/(M-1))`, with the numpy
special case `hamming(1) = [1]`. -/
def npHamming (M : ℕ) : List ℝ :=
  if M = 1 then [1]
  else (List.range M).map
    fun (k : ℕ) =>
      0.54 - 0.46 * Real.cos (2 * Real.pi * (k : ℝ) / ((M : ℝ) - 1))

/-- Model of `np.arange(lo, hi)` on integers. -/
def arange (lo hi : ℤ) : List ℤ :=
  (List.range (hi - lo).toNat).map fun (k : ℕ) => lo + (k : ℤ)

/-- The un-normalised windowed sinc of `PulseShaper.fractionaldelay`:
`np.sinc(n - frac_delay) * np.hamming(sinc_taps)` over
`n = np.arange(-(sinc_taps-1)//2, sinc_taps//2 + 1)`. -/
def sincDelayRaw (sinc_taps : ℕ) (frac_delay : ℝ) : List ℝ :=
  let n := arange (pyFloorDiv (-((sinc_taps : ℤ) - 1)) 2)
    (pyFloorDiv (sinc_taps : ℤ) 2 + 1)
  List.zipWith (fun (ni : ℤ) (h : ℝ) => npsinc ((ni : ℝ) - frac_delay) * h)
    n (npHamming sinc_taps)

/-- The fractional-delay kernel after `sinc_delay /= np.sum(sinc_delay)`. -/
def sincDelayKernel (sinc_taps : ℕ) (frac_delay : ℝ) : List ℝ :=
  (sincDelayRaw sinc_taps frac_delay).map
    fun x => x / (sincDelayRaw sinc_taps frac_delay).sum

/-- The integer-delay stage of `PulseShaper.fractionaldelay`:
`np.concatenate((np.zeros(int_delay), self.pulse_shaped[:-int_delay]))`
when `int_delay` is truthy (nonzero), identity otherwise. -/
def intDelayStage (pulse_shaped : List ℝ) (int_delay : ℕ) : List ℝ :=
  if int_delay = 0 then pulse_shaped
  else List.replicate int_delay 0 ++
    pulse_shaped.take (pulse_shaped.length - int_delay)

/-- Model of `PulseShaper.fractionaldelay`: integer-delay stage, then (when a
fractional delay is requested — `None` and `0.0` are both falsy) the
windowed-sinc convolution with the same edge-trimming slice as
`pulseshaping`. -/
def fractionaldelay (pulse_shaped : List ℝ) (int_delay : Option ℕ)
    (frac_delay : Option ℝ) (sinc_taps : ℕ) (keep_edges : Bool) : List ℝ :=
  let pulse_shaped_int_delayed :=
    match int_delay with
    | none => pulse_shaped
    | some d => intDelayStage pulse_shaped d
  match frac_delay with
  | none => pulse_shaped_int_delayed
  | some fd =>
      if fd = 0 then pulse_shaped_int_delayed
      else
        let sinc_delay := sincDelayKernel sinc_taps fd
        let pulse_shaped_delayed := convolve pulse_shaped_int_delayed sinc_delay
        if keep_edges then pulse_shaped_delayed
        else
          pySlice pulse_shaped_delayed (pyFloorDiv ((sinc_taps : ℤ) - 1) 2)
            (pyFloorDiv (-((sinc_taps : ℤ) - 1)) 2)

/-- Model of `np.mean(signal**2)` (real signal), the `pulse_power` of
`PulseShaper.noise`; the empty mean (numpy NaN) degenerates to `0/0 = 0`
here, which only strengthens the zero-power hypothesis. -/
def signalPower (l : List ℝ) : ℝ := (l.map fun x => x ^ 2).sum / l.length

/-- Model of `PulseShaper.noise`: variance `pulse_power / 10^(snr/10)`; real AWGN
`sqrt(variance)·g1ᵢ`, or circular complex AWGN
`sqrt(variance/2)·(g1ᵢ + i·g2ᵢ)`, added to the signal.  `g1`, `g2` are
the underlying standard-normal draws of `np.random`. -/
def noiseVariance (pulse_shaped_delayed : List ℝ) (snr : ℝ) : ℝ :=
  signalPower pulse_shaped_delayed / (10 : ℝ) ^ (snr / 10)

def noise (pulse_shaped_delayed : List ℝ) (snr : ℝ) (is_complex : Bool)
    (g1 g2 : ℕ → ℝ) : List ℂ :=
  (List.range pulse_shaped_delayed.length).map fun i =>
    if is_complex then
      (pulse_shaped_delayed.getD i 0 : ℂ) +
        (Real.sqrt (noiseVariance pulse_shaped_delayed snr / 2) : ℂ) *
          (g1 i + Complex.I * g2 i)
    else ((pulse_shaped_delayed.getD i 0 +
      Real.sqrt (noiseVariance pulse_shaped_delayed snr) * g1 i : ℝ) : ℂ)

end PulseShaper

end

/-! ## Loop-counting helpers -/

/-- Number of further iterations the `main` loop performs when entered
with index `i`: the count of `j ≥ 0` with `i + j·sps < num_samples`. -/
def iterCount (num_samples sps i : ℕ) : ℕ := (num_samples - i + sps - 1) / sps

/-- The number of positive multiples of `sps` strictly below
`num_samples` — the iteration count of a completed `main` run. -/
def multiplesBelow (sps num_samples : ℕ) : ℕ :=
  ((Finset.range num_samples).filter fun k => 0 < k ∧ sps ∣ k).card

/-! ## Loop lemmas -/

theorem pyMod_nonneg_lt (x : ℚ) {y : ℚ} (hy : 0 < y) :
    0 ≤ pyMod x y ∧ pyMod x y < y := by
  have hfr : pyMod x y = y * Int.fract (x / y) := by
    unfold pyMod Int.fract
    field_simp
  constructor
  · rw [hfr]
    exact mul_nonneg hy.le (Int.fract_nonneg _)
  · rw [hfr]
    calc y * Int.fract (x / y) < y * 1 :=
      mul_lt_mul_of_pos_left (Int.fract_lt_one _) hy
    _ = y := mul_one y

namespace TimingErrorDetector

/-- Anatomy of a successful loop iteration: `sps` was nonzero, each
trace gained exactly one entry, the appended offset entry is a
modulo-wrapped value, and the symbol index advanced by `sps`. -/
theorem step_some {P : List ℚ} {u s : ℕ} {eq : ErrorEq} {g kp ki : ℚ}
    {d : ℕ} {upi : Bool} {st st' : LoopState}
    (h : step P u s eq g kp ki d upi st = some st') :
    s ≠ 0 ∧
    (∃ e, st'.error = st.error ++ [e]) ∧
    (∃ x, st'.offset = st.offset ++ [pyMod x s]) ∧
    (∃ y, st'.symbols_pred = st.symbols_pred ++ [y]) ∧
    (∃ w, st'.out_signal = st.out_signal ++ [w]) ∧
    st'.i_cur = st.i_cur + s := by
  by_cases hs : s = 0
  · simp [step, hs] at h
  · simp only [step, hs, if_false, Option.bind_eq_some, Option.map_eq_some'] at h
    obtain ⟨vc, hvc, vp, hvp, e, he, rfl⟩ := h
    refine ⟨hs, ⟨e, by simp [mkNext]⟩,
      ⟨(if upi then st.tau + (if upi then st.v + ki * e else st.v) + kp * e
        else st.tau + g * e), by simp [mkNext]⟩,
      ⟨npSign vc, by simp [mkNext]⟩, ⟨vc, by simp [mkNext]⟩, by simp [mkNext]⟩

theorem mainLoop_offset_bounds {P : List ℚ} {u ns s : ℕ} {eq : ErrorEq}
    {g kp ki : ℚ} {d : ℕ} {upi : Bool} (hs : 0 < s) :
    ∀ fuel (st st' : LoopState),
      mainLoop P u ns s eq g kp ki d upi fuel st = some st' →
      (∀ q ∈ st.offset, 0 ≤ q ∧ q < (s : ℚ)) →
      ∀ q ∈ st'.offset, 0 ≤ q ∧ q < (s : ℚ) := by
  intro fuel
  induction fuel with
  | zero =>
    intro st st' h hinv
    rw [mainLoop] at h
    split at h
    · exact absurd h (by simp)
    · obtain rfl : st = st' := by injection h
      exact hinv
  | succ f ih =>
    intro st st' h hinv
    rw [mainLoop] at h
    split at h
    · obtain ⟨st1, hstep, hloop⟩ := Option.bind_eq_some.mp h
      obtain ⟨-, -, ⟨x, hoff⟩, -, -, -⟩ := step_some hstep
      refine ih st1 st' hloop ?_
      rw [hoff]
      intro q hq
      rcases List.mem_append.mp hq with h1 | h2
      · exact hinv q h1
      · rw [List.mem_singleton.mp h2]
        exact pyMod_nonneg_lt x (by exact_mod_cast hs)
    · obtain rfl : st = st' := by injection h
      exact hinv

end TimingErrorDetector

theorem iterCount_of_le {ns s i : ℕ} (h : ns ≤ i) : iterCount ns s i = 0 := by
  unfold iterCount
  rcases Nat.eq_zero_or_pos s with rfl | hs
  · simp
  · exact Nat.div_eq_of_lt (by omega)

theorem iterCount_succ {ns s i : ℕ} (hs : s ≠ 0) (h : i < ns) :
    iterCount ns s i = iterCount ns s (i + s) + 1 := by
  unfold iterCount
  have h1 : ns - i + s - 1 = (ns - i - 1) + s := by omega
  rw [h1, Nat.add_div_right _ (Nat.pos_of_ne_zero hs)]
  rcases Nat.lt_or_ge ns (i + s) with hlt | hge
  · have h2 : ns - (i + s) = 0 := by omega
    rw [h2]
    have h3 : ns - i - 1 < s := by omega
    rw [Nat.div_eq_of_lt h3, Nat.div_eq_of_lt (by omega)]
  · have h2 : ns - (i + s) + s - 1 = ns - i - 1 := by omega
    rw [h2]

theorem iterCount_eq_multiplesBelow {ns s : ℕ} (hs : 0 < s) (hns : s < ns) :
    iterCount ns s s = multiplesBelow s ns := by
  have h1 : iterCount ns s s = (ns - 1) / s := by
    unfold iterCount
    congr 1
    omega
  have h2 : ((Finset.range ns).filter fun k => 0 < k ∧ s ∣ k) =
      (Finset.Ioc 0 (ns - 1)).filter fun k => s ∣ k := by
    ext k
    simp only [Finset.mem_filter, Finset.mem_range, Finset.mem_Ioc]
    constructor
    · rintro ⟨hk, hk0, hdvd⟩
      exact ⟨⟨hk0, by omega⟩, hdvd⟩
    · rintro ⟨⟨hk0, hk⟩, hdvd⟩
      exact ⟨by omega, hk0, hdvd⟩
  rw [h1]
  unfold multiplesBelow
  rw [h2, Nat.Ioc_filter_dvd_card_eq_div]

namespace TimingErrorDetector

/-- Each completed traversal of the loop appends `iterCount` entries to
every trace (counted from the entry index), growing `symbols_pred` and
`out_signal` by suffix only. -/
theorem mainLoop_counts {P : List ℚ} {u ns s : ℕ} {eq : ErrorEq}
    {g kp ki : ℚ} {d : ℕ} {upi : Bool} :
    ∀ fuel (st st' : LoopState),
      mainLoop P u ns s eq g kp ki d upi fuel st = some st' →
      st'.error.length = st.error.length + iterCount ns s st.i_cur ∧
      st'.offset.length = st.offset.length + iterCount ns s st.i_cur ∧
      (∃ l, st'.symbols_pred = st.symbols_pred ++ l ∧
        l.length = iterCount ns s st.i_cur) ∧
      (∃ l, st'.out_signal = st.out_signal ++ l ∧
        l.length = iterCount ns s st.i_cur) := by
  intro fuel
  induction fuel with
  | zero =>
    intro st st' h
    rw [mainLoop] at h
    split at h
    · exact absurd h (by simp)
    · obtain rfl : st = st' := by injection h
      rw [iterCount_of_le (by omega)]
      exact ⟨rfl, rfl, ⟨[], by simp⟩, ⟨[], by simp⟩⟩
  | succ f ih =>
    intro st st' h
    rw [mainLoop] at h
    split at h
    · rename_i hlt
      obtain ⟨st1, hstep, hloop⟩ := Option.bind_eq_some.mp h
      obtain ⟨hs, ⟨e, herr⟩, ⟨x, hoff⟩, ⟨y, hsym⟩, ⟨w, hout⟩, hicur⟩ :=
        step_some hstep
      obtain ⟨ih1, ih2, ⟨l3, hl3, hl3len⟩, ⟨l4, hl4, hl4len⟩⟩ :=
        ih st1 st' hloop
      rw [iterCount_succ hs hlt]
      rw [hicur] at ih1 ih2 hl3len hl4len
      refine ⟨by rw [ih1, herr]; simp; omega,
        by rw [ih2, hoff]; simp; omega, ?_, ?_⟩
      · exact ⟨[y] ++ l3, by rw [hl3, hsym, List.append_assoc],
          by simp [hl3len]⟩
      · exact ⟨[w] ++ l4, by rw [hl4, hout, List.append_assoc],
          by simp [hl4len]⟩
    · obtain rfl : st = st' := by injection h
      rw [iterCount_of_le (by omega)]
      exact ⟨rfl, rfl, ⟨[], by simp⟩, ⟨[], by simp⟩⟩

end TimingErrorDetector

/-- C4: confirmed.  For every run of `main` with positive `sps` that
returns, every recorded value of the offset trace — each being the
phase estimate `tau` right after the `tau %= sps` wrap of its
iteration — lies in `[0, sps)`. -/
theorem c4_offset_trace_in_range (P : List ℚ) (u ns s : ℕ)
    (eq : TimingErrorDetector.ErrorEq) (tau g kp ki : ℚ) (d : ℕ) (sp0 : ℚ)
    (upi : Bool) (off err sym outs : List ℚ) (hs : 0 < s)
    (h : TimingErrorDetector.main P u ns s eq tau g kp ki d sp0 upi =
      some (off, err, sym, outs)) :
    ∀ q ∈ off, 0 ≤ q ∧ q < (s : ℚ) := by
  simp only [TimingErrorDetector.main, Option.bind_eq_some,
    Option.map_eq_some'] at h
  obtain ⟨first, hfirst, stf, hloop, heq⟩ := h
  have hoff : stf.offset = off := by
    have := congrArg Prod.fst heq
    simpa using this
  rw [← hoff]
  exact TimingErrorDetector.mainLoop_offset_bounds hs ns _ stf hloop
    (by intro q hq; simp at hq)

/-- C4 witness: a concrete two-sample mueller run with `sps = 1` whose
single recorded offset `9/10` the theorem places in `[0, 1)`. -/
theorem c4_offset_trace_in_range_witness :
    0 < 1 ∧ (0 ≤ (9/10 : ℚ) ∧ (9/10 : ℚ) < ((1 : ℕ) : ℚ)) :=
  ⟨Nat.one_pos,
    c4_offset_trace_in_range [1, 1, 1] 1 2 1 .mueller 0 (1/10) (1/100)
      (1/10000) 4 0 false [9/10] [-1] [0, 1] [1, 1] Nat.one_pos
      (by with_unfolding_all decide) (9/10) (List.mem_singleton.mpr rfl)⟩

/-- C10: confirmed.  A normally returning `main` run with
`num_samples > sps > 0` yields error and offset traces of length `N`,
the number of positive multiples of `sps` strictly below `num_samples`,
symbol-decision and sampled-signal traces of length `N + 1`, and the
first recorded decision is the caller-supplied initial `symbol_prev`. -/
theorem c10_trace_lengths (P : List ℚ) (u ns s : ℕ)
    (eq : TimingErrorDetector.ErrorEq) (tau g kp ki : ℚ) (d : ℕ) (sp0 : ℚ)
    (upi : Bool) (off err sym outs : List ℚ) (hs : 0 < s) (hns : s < ns)
    (h : TimingErrorDetector.main P u ns s eq tau g kp ki d sp0 upi =
      some (off, err, sym, outs)) :
    err.length = multiplesBelow s ns ∧
    off.length = multiplesBelow s ns ∧
    sym.length = multiplesBelow s ns + 1 ∧
    outs.length = multiplesBelow s ns + 1 ∧
    sym.head? = some sp0 := by
  simp only [TimingErrorDetector.main, Option.bind_eq_some,
    Option.map_eq_some'] at h
  obtain ⟨first, hfirst, stf, hloop, heq⟩ := h
  simp only [Prod.mk.injEq] at heq
  obtain ⟨e1, e2, e3, e4⟩ := heq
  subst e1
  subst e2
  subst e3
  subst e4
  obtain ⟨h1, h2, ⟨l3, hl3, hl3len⟩, ⟨l4, hl4, hl4len⟩⟩ :=
    TimingErrorDetector.mainLoop_counts ns _ stf hloop
  simp only at h1 h2 hl3 hl3len hl4 hl4len
  rw [iterCount_eq_multiplesBelow hs hns] at h1 h2 hl3len hl4len
  refine ⟨by simpa using h1, by simpa using h2, ?_, ?_, ?_⟩
  · rw [hl3]
    simp [hl3len]
  · rw [hl4]
    simp [hl4len]
  · rw [hl3]
    simp

/-- C10 witness: the concrete run has `N = 1` positive multiple of
`sps = 1` below `num_samples = 2`, one error and offset entry, two
decisions and samples, and initial decision `0`. -/
theorem c10_trace_lengths_witness :
    0 < 1 ∧ 1 < 2 ∧
    ([(-1 : ℚ)].length = multiplesBelow 1 2 ∧
     [(9/10 : ℚ)].length = multiplesBelow 1 2 ∧
     [(0 : ℚ), 1].length = multiplesBelow 1 2 + 1 ∧
     [(1 : ℚ), 1].length = multiplesBelow 1 2 + 1 ∧
     [(0 : ℚ), 1].head? = some 0) :=
  ⟨Nat.one_pos, Nat.one_lt_two,
    c10_trace_lengths [1, 1, 1] 1 2 1 .mueller 0 (1/10) (1/100) (1/10000)
      4 0 false [9/10] [-1] [0, 1] [1, 1] Nat.one_pos Nat.one_lt_two
      (by with_unfolding_all decide)⟩

/-- C1: refuted as stated; the code diverges from both halves of the
claim.  With a configured factor of 16 and a 10-sample input,
`interpolator` still yields `32·10 = 320` samples (the method shadows
`self.upsample` with a hardcoded local `upsample = 32`), not
`16·10 = 160`; and with `tau = 3/5`, `upsample = 16` the loop reads
index `16 + int(9.6) = 25` (truncation), while rounding as claimed (and
as the code's own comment says) would give `16 + 10 = 26`. -/
theorem c1_interpolator_factor_and_index_eval :
    TimingErrorDetector.interpolatorLen 10 = 32 * 10 ∧
    TimingErrorDetector.interpolatorLen 10 ≠ 16 * 10 ∧
    TimingErrorDetector.interpolatorUpsample = 32 ∧
    TimingErrorDetector.offsetCur 1 16 (3/5) = 25 ∧
    (1 : ℤ) * 16 + round ((3/5 : ℚ) * 16) = 26 := by
  refine ⟨rfl, by norm_num [TimingErrorDetector.interpolatorLen], rfl, ?_, ?_⟩
  · with_unfolding_all decide
  · with_unfolding_all decide

/-- C2: refuted as stated; the Early-Late Gate boundary handling crashes
on both edge cases the claim covers.  First run (`delta = 4`): buffer
length 5, `offset_cur + shift = 5` lands exactly at the buffer length,
the strict `>` guard does not fire, and `interpolated_pulse[5]` raises
`IndexError` (modelled `none`).  Second run (`delta = 1`): the forward
offset exceeds the buffer on the very first iteration, and `error[-1]`
on the still-empty error list raises `IndexError`. -/
theorem c2_elg_boundary_crash_eval :
    TimingErrorDetector.main [1, 1, 1, 1, 1] 1 5 4 .elg 0 (1/10) (1/100)
      (1/10000) 4 0 false = none ∧
    TimingErrorDetector.main [1, 1, 1, 1, 1] 1 5 4 .elg 0 (1/10) (1/100)
      (1/10000) 1 0 false = none := by
  constructor
  · with_unfolding_all decide
  · with_unfolding_all decide

/-- C3: refuted as stated; `results` performs no length check.  With 30
true symbols (= the preamble length), 31 recorded decisions and
`keep_all = False`, both post-preamble slices are empty, `num_symbols`
is `0`, and the statistics divide `0/0` — numpy returns NaN values
(inner `none`s) with a warning instead of raising, so a statistics tuple
is produced and no explicit error occurs. -/
theorem c3_results_short_run_eval :
    TimingErrorDetector.results (List.replicate 31 1) [7/10]
      (List.replicate 30 1) false = some (none, none, 7/10) := by
  with_unfolding_all decide

/-! ## PulseShaper lemmas -/

theorem convolve_length (a v : List ℝ) :
    (convolve a v).length = a.length + v.length - 1 := by
  rw [convolve, List.length_map, List.length_range]

theorem fdiv_two_mul_left (t : ℤ) : Int.fdiv (2 * t) 2 = t :=
  Int.mul_fdiv_cancel_left t (by norm_num)

theorem createrc_length (rc_taps : ℕ) (rolloff sps : ℝ) :
    (PulseShaper.createrc rc_taps rolloff sps).length = rc_taps := by
  simp [PulseShaper.createrc, PulseShaper.rcosfilter]

/-- C6 counterexample: with (odd) tap count 1 and keep_edges left at its
default False, the code's slice `[0:0]` empties the output, so its length
is 0, not the input length 1. -/
theorem c6_trim_taps_one_cex :
    (PulseShaper.pulseshaping 1 (PulseShaper.createrc 1 0 1) [1]
      false).length ≠ ([(1 : ℝ)]).length := by
  norm_num [PulseShaper.pulseshaping, pySlice, pyBound, pyFloorDiv,
    convolve_length, createrc_length]

/-- C6 (amended): for every odd tap count of at least 3 and nonempty
input, `pulseshaping` with keep_edges yields the full convolution length
`len(input) + tap_count - 1`, and without keep_edges trims
`(tap_count-1)/2` samples from each end, leaving exactly `len(input)`
samples; for tap count 1 the trimming slice instead degenerates to the
empty list (see the counterexample). -/
theorem c6_pulseshaping_lengths (rc_taps : ℕ) (rolloff sps : ℝ)
    (pulses : List ℝ) (hodd : Odd rc_taps) (h3 : 3 ≤ rc_taps)
    (hne : pulses ≠ []) :
    (PulseShaper.pulseshaping rc_taps
      (PulseShaper.createrc rc_taps rolloff sps) pulses true).length =
      pulses.length + rc_taps - 1 ∧
    (PulseShaper.pulseshaping rc_taps
      (PulseShaper.createrc rc_taps rolloff sps) pulses false).length =
      pulses.length := by
  obtain ⟨t, rfl⟩ := hodd
  have ht : 1 ≤ t := by omega
  have hn : 1 ≤ pulses.length := List.length_pos.mpr hne
  have hconv : (convolve pulses
      (PulseShaper.createrc (2 * t + 1) rolloff sps)).length =
      pulses.length + 2 * t := by
    rw [convolve_length, createrc_length]
    omega
  constructor
  · simp only [PulseShaper.pulseshaping, if_true]
    rw [hconv]
    omega
  · simp only [PulseShaper.pulseshaping, Bool.false_eq_true, if_false]
    have hfd1 : pyFloorDiv (((2 * t + 1 : ℕ) : ℤ) - 1) 2 = (t : ℤ) := by
      unfold pyFloorDiv
      have h : ((2 * t + 1 : ℕ) : ℤ) - 1 = 2 * (t : ℤ) := by push_cast; ring
      rw [h, fdiv_two_mul_left]
    have hfd2 : pyFloorDiv (-(((2 * t + 1 : ℕ) : ℤ) - 1)) 2 = -(t : ℤ) := by
      unfold pyFloorDiv
      have h : -(((2 * t + 1 : ℕ) : ℤ) - 1) = 2 * (-(t : ℤ)) := by
        push_cast; ring
      rw [h, fdiv_two_mul_left]
    rw [pySlice, hfd1, hfd2, List.length_drop, List.length_take, hconv]
    unfold pyBound
    rw [if_pos (by omega : -(t : ℤ) < 0), if_neg (by omega : ¬(t : ℤ) < 0)]
    omega

/-- C7 counterexample: an integer delay larger than the signal (delay 2,
one-sample signal) yields `zeros(2) ++ [][:]`, a buffer of length 2 — not
a buffer of the input's length 1. -/
theorem c7_int_delay_overlong_cex :
    (PulseShaper.intDelayStage [1] 2).length ≠ ([(1 : ℝ)]).length := by
  norm_num [PulseShaper.intDelayStage]

/-- C7 (amended): for every shaped signal and every integer delay
`d ≤ len(input)`, the integer-delay stage keeps the length, zeroes the
first `d` entries and shifts the rest by `d` (losing the last `d` input
samples); and with no fractional delay requested the fractional stage
passes this buffer through unchanged.  For `d > len(input)` the output
instead has length `d` (see the counterexample). -/
theorem c7_int_delay_stage (l : List ℝ) (d : ℕ) (hd : d ≤ l.length) :
    (PulseShaper.intDelayStage l d).length = l.length ∧
    (∀ i, i < d → (PulseShaper.intDelayStage l d).getD i 0 = 0) ∧
    (∀ i, d ≤ i → i < l.length →
      (PulseShaper.intDelayStage l d).getD i 0 = l.getD (i - d) 0) ∧
    (∀ (sinc_taps : ℕ) (keep_edges : Bool),
      PulseShaper.fractionaldelay l (some d) none sinc_taps keep_edges =
        PulseShaper.intDelayStage l d) := by
  refine ⟨?_, ?_, ?_, fun _ _ => rfl⟩
  · by_cases h0 : d = 0
    · simp [PulseShaper.intDelayStage, h0]
    · simp only [PulseShaper.intDelayStage, h0, if_false,
        List.length_append, List.length_replicate, List.length_take]
      omega
  · intro i hi
    have h0 : d ≠ 0 := by omega
    simp only [PulseShaper.intDelayStage, h0, if_false]
    rw [List.getD_append _ _ _ _ (by simpa using hi)]
    rw [List.getD_eq_getElem _ _ (by simpa using hi)]
    exact List.getElem_replicate ..
  · intro i hdi hil
    by_cases h0 : d = 0
    · subst h0
      simp [PulseShaper.intDelayStage]
    · simp only [PulseShaper.intDelayStage, h0, if_false]
      rw [List.getD_append_right _ _ _ _ (by simpa using hdi)]
      simp only [List.length_replicate]
      rw [List.getD_eq_getD_get?, List.getD_eq_getD_get?,
        List.get?_take (by omega)]

/-- C7 witness: delaying `[5, 7]` by one sample gives `[0, 5]` and the
fractional stage passes it through. -/
theorem c7_int_delay_stage_witness :
    (PulseShaper.intDelayStage [5, 7] 1).length = ([(5 : ℝ), 7]).length ∧
    (PulseShaper.intDelayStage [5, 7] 1).getD 0 0 = 0 ∧
    (PulseShaper.intDelayStage [5, 7] 1).getD 1 0 =
      ([(5 : ℝ), 7]).getD 0 0 ∧
    PulseShaper.fractionaldelay [5, 7] (some 1) none 3 false =
      PulseShaper.intDelayStage [5, 7] 1 := by
  have h := c7_int_delay_stage [5, 7] 1 (by norm_num)
  exact ⟨h.1, h.2.1 0 (by norm_num), by simpa using h.2.2.1 1 le_rfl (by norm_num),
    h.2.2.2 3 false⟩

/-- C9: confirmed.  Zero signal power never divides by zero (the SNR
denominator `10^(snr/10)` is strictly positive for every finite SNR) and
produces zero variance, hence exactly zero injected noise in both the
real and the complex branch: the signal is returned unchanged. -/
theorem c9_noise_zero_power (l : List ℝ) (snr : ℝ) (is_complex : Bool)
    (g1 g2 : ℕ → ℝ) (hp : PulseShaper.signalPower l = 0) :
    (10 : ℝ) ^ (snr / 10) ≠ 0 ∧
    PulseShaper.noise l snr is_complex g1 g2 =
      l.map Complex.ofReal := by
  have h10 : (0 : ℝ) < (10 : ℝ) ^ (snr / 10) :=
    Real.rpow_pos_of_pos (by norm_num) _
  refine ⟨ne_of_gt h10, ?_⟩
  have hv : PulseShaper.noiseVariance l snr = 0 := by
    rw [PulseShaper.noiseVariance, hp, zero_div]
  unfold PulseShaper.noise
  rw [hv]
  apply List.ext_getElem
  · simp only [List.length_map, List.length_range]
  · intro i h1 h2
    have hi : i < l.length := by
      simpa only [List.length_map, List.length_range] using h1
    simp only [List.getElem_map, List.getElem_range]
    have hgd : l.getD i 0 = l[i] := List.getD_eq_getElem l 0 hi
    rcases is_complex with _ | _
    · rw [if_neg (by simp), Real.sqrt_zero, zero_mul, add_zero, hgd]
    · rw [if_pos rfl, zero_div, Real.sqrt_zero, Complex.ofReal_zero,
        zero_mul, add_zero, hgd]

/-- C6 witness: tap count 3 on a two-sample input — full convolution has
4 samples, the trimmed result 2. -/
theorem c6_pulseshaping_lengths_witness :
    Odd 3 ∧ ([(1 : ℝ), 2] ≠ []) ∧
    (PulseShaper.pulseshaping 3 (PulseShaper.createrc 3 0 1) [1, 2]
      true).length = 4 ∧
    (PulseShaper.pulseshaping 3 (PulseShaper.createrc 3 0 1) [1, 2]
      false).length = 2 := by
  have h := c6_pulseshaping_lengths 3 0 1 [1, 2] ⟨1, by norm_num⟩
    (by norm_num) (by simp)
  exact ⟨⟨1, by norm_num⟩, by simp, by simpa using h.1, by simpa using h.2⟩

/-- C9 witness: a zero signal at 0 dB SNR passes through `noise`
unchanged, with a nonzero SNR denominator. -/
theorem c9_noise_zero_power_witness :
    PulseShaper.signalPower [0, 0] = 0 ∧
    ((10 : ℝ) ^ ((0 : ℝ) / 10) ≠ 0 ∧
      PulseShaper.noise [0, 0] 0 false (fun _ => 1) (fun _ => 1) =
        List.map Complex.ofReal [(0 : ℝ), 0]) := by
  have hp : PulseShaper.signalPower [(0 : ℝ), 0] = 0 := by
    norm_num [PulseShaper.signalPower]
  exact ⟨hp, c9_noise_zero_power [0, 0] 0 false (fun _ => 1) (fun _ => 1) hp⟩

/-! ## Raised-cosine symmetry (C5) -/

/-- The raised-cosine tap formula is even in `t = x - N/2`: taps at
mirror positions (`x + y = N`) coincide. -/
theorem rcosfilterTap_symm (N : ℕ) (alpha Ts : ℝ) (x y : ℕ)
    (hxy : (x : ℝ) + (y : ℝ) = (N : ℝ)) :
    PulseShaper.rcosfilterTap N alpha Ts x =
      PulseShaper.rcosfilterTap N alpha Ts y := by
  simp only [PulseShaper.rcosfilterTap]
  have ht : (y : ℝ) - (N : ℝ) / 2 = -((x : ℝ) - (N : ℝ) / 2) := by
    linarith
  rw [ht]
  set t : ℝ := (x : ℝ) - (N : ℝ) / 2 with htdef
  have hsinc : Real.sin (Real.pi * -t / Ts) / (Real.pi * -t / Ts) =
      Real.sin (Real.pi * t / Ts) / (Real.pi * t / Ts) := by
    have h1 : Real.pi * -t / Ts = -(Real.pi * t / Ts) := by ring
    rw [h1, Real.sin_neg, neg_div_neg_eq]
  by_cases h0 : t = 0
  · rw [h0]
    norm_num
  · have h0' : -t ≠ 0 := neg_ne_zero.mpr h0
    rw [if_neg h0, if_neg h0']
    by_cases ha : alpha = 0
    · rw [if_neg (by simp [ha]), if_neg (by simp [ha]), if_neg (by simp [ha]),
        if_neg (by simp [ha])]
      rw [hsinc]
      have h2 : Real.pi * alpha * -t / Ts = -(Real.pi * alpha * t / Ts) := by
        ring
      have h3 : 2 * alpha * -t / Ts = -(2 * alpha * t / Ts) := by ring
      rw [h2, Real.cos_neg, h3, neg_sq]
    · by_cases hp : t = Ts / (2 * alpha)
      · have hT0 : Ts / (2 * alpha) ≠ 0 := by
          rw [← hp]
          exact h0
        have hm' : -t = -(Ts / (2 * alpha)) := by rw [hp]
        have hp' : ¬(-t = Ts / (2 * alpha)) := by
          rw [hm']
          intro hcc
          exact hT0 (by linarith)
        rw [if_pos ⟨ha, hp⟩, if_neg (fun hc => hp' hc.2), if_pos ⟨ha, hm'⟩]
        rw [hsinc]
      · by_cases hm : t = -(Ts / (2 * alpha))
        · have hT0 : Ts / (2 * alpha) ≠ 0 := by
            intro hcc
            rw [hcc] at hm
            exact h0 (by linarith)
          have hp2 : -t = Ts / (2 * alpha) := by rw [hm]; ring
          rw [if_neg (fun hc => hp hc.2), if_pos ⟨ha, hm⟩,
            if_pos ⟨ha, hp2⟩]
          rw [hsinc]
        · have hp2 : ¬(-t = Ts / (2 * alpha)) := by
            intro hc
            exact hm (by linarith)
          have hm2 : ¬(-t = -(Ts / (2 * alpha))) := by
            intro hc
            exact hp (by linarith)
          rw [if_neg (fun hc => hp hc.2), if_neg (fun hc => hm hc.2),
            if_neg (fun hc => hp2 hc.2), if_neg (fun hc => hm2 hc.2)]
          rw [hsinc]
          have h2 : Real.pi * alpha * -t / Ts = -(Real.pi * alpha * t / Ts) := by
            ring
          have h3 : 2 * alpha * -t / Ts = -(2 * alpha * t / Ts) := by ring
          rw [h2, Real.cos_neg, h3, neg_sq]

/-- Rewriting `createrc` as a direct map over tap positions `1..rc_taps` of the
`rc_taps + 1`-tap commpy filter. -/
theorem createrc_eq_map (rc_taps : ℕ) (rolloff sps : ℝ) :
    PulseShaper.createrc rc_taps rolloff sps =
      (List.range rc_taps).map
        (fun (k : ℕ) =>
          PulseShaper.rcosfilterTap (rc_taps + 1) rolloff sps (k + 1)) := by
  unfold PulseShaper.createrc PulseShaper.rcosfilter
  rw [List.range_succ_eq_map, List.map_cons, List.tail_cons, List.map_map]
  rfl

/-- C5: confirmed.  For every odd tap count the raised-cosine kernel
built by `createrc` is symmetric about its centre:
`kernel[i] = kernel[N-1-i]` for all `i < N`. -/
theorem c5_createrc_symmetric (N : ℕ) (rolloff sps : ℝ) (hodd : Odd N) :
    ∀ i < N, (PulseShaper.createrc N rolloff sps).getD i 0 =
      (PulseShaper.createrc N rolloff sps).getD (N - 1 - i) 0 := by
  intro i hi
  rw [createrc_eq_map]
  have hlen : ((List.range N).map
      (fun (k : ℕ) =>
        PulseShaper.rcosfilterTap (N + 1) rolloff sps (k + 1))).length = N := by
    simp
  rw [List.getD_eq_getElem _ _ (by rw [hlen]; exact hi),
    List.getD_eq_getElem _ _ (by rw [hlen]; omega)]
  simp only [List.getElem_map, List.getElem_range]
  apply rcosfilterTap_symm
  have hnat : (i + 1) + ((N - 1 - i) + 1) = N + 1 := by omega
  exact_mod_cast congrArg (Nat.cast (R := ℝ)) hnat

/-- C5 witness: the tap-3 kernel at rolloff 0, `sps = 1` has equal outer
taps. -/
theorem c5_createrc_symmetric_witness :
    Odd 3 ∧ 0 < 3 ∧
    (PulseShaper.createrc 3 0 1).getD 0 0 =
      (PulseShaper.createrc 3 0 1).getD 2 0 := by
  refine ⟨⟨1, by norm_num⟩, by norm_num, ?_⟩
  have h := c5_createrc_symmetric 3 0 1 ⟨1, by norm_num⟩ 0 (by norm_num)
  simpa using h

/-! ## Fractional-delay kernel (C8) -/

theorem sum_map_div (l : List ℝ) (s : ℝ) :
    (l.map (fun x => x / s)).sum = l.sum / s := by
  induction l with
  | nil => simp
  | cons a t ih => simp [ih, add_div]

theorem sum_getD_eq_sum (l : List ℝ) :
    ∑ j ∈ Finset.range l.length, l.getD j 0 = l.sum := by
  induction l with
  | nil => simp
  | cons a t ih =>
    rw [List.length_cons, Finset.sum_range_succ']
    simp only [List.getD_cons_succ, List.getD_cons_zero, ih]
    rw [List.sum_cons]
    ring

theorem sincDelayKernel_sum (M : ℕ) (d : ℝ)
    (hS : (PulseShaper.sincDelayRaw M d).sum ≠ 0) :
    (PulseShaper.sincDelayKernel M d).sum = 1 := by
  unfold PulseShaper.sincDelayKernel
  rw [sum_map_div, div_self hS]

theorem npHamming_length (M : ℕ) : (PulseShaper.npHamming M).length = M := by
  unfold PulseShaper.npHamming
  split
  · simp [*]
  · simp

theorem arange_length (lo hi : ℤ) :
    (PulseShaper.arange lo hi).length = (hi - lo).toNat := by
  simp [PulseShaper.arange]

theorem sincDelayRaw_length (M : ℕ) (d : ℝ) (hodd : Odd M) :
    (PulseShaper.sincDelayRaw M d).length = M := by
  obtain ⟨t, rfl⟩ := hodd
  unfold PulseShaper.sincDelayRaw
  rw [List.length_zipWith, arange_length, npHamming_length]
  have h1 : pyFloorDiv (-(((2 * t + 1 : ℕ) : ℤ) - 1)) 2 = -(t : ℤ) := by
    unfold pyFloorDiv
    have h : -(((2 * t + 1 : ℕ) : ℤ) - 1) = 2 * (-(t : ℤ)) := by
      push_cast; ring
    rw [h, fdiv_two_mul_left]
  have h2 : pyFloorDiv ((2 * t + 1 : ℕ) : ℤ) 2 = (t : ℤ) := by
    unfold pyFloorDiv
    rw [Int.fdiv_eq_ediv _ (by positivity)]
    omega
  rw [h1, h2]
  omega

theorem sincDelayKernel_length (M : ℕ) (d : ℝ) (hodd : Odd M) :
    (PulseShaper.sincDelayKernel M d).length = M := by
  unfold PulseShaper.sincDelayKernel
  rw [List.length_map, sincDelayRaw_length M d hodd]

/-- Reading a Python slice inside its bounds reads the underlying list,
shifted by the normalised start. -/
theorem pySlice_getD (l : List ℝ) (s e : ℤ) (j : ℕ)
    (h : pyBound l.length s + j < pyBound l.length e) :
    (pySlice l s e).getD j 0 = l.getD (pyBound l.length s + j) 0 := by
  unfold pySlice
  rw [List.getD_eq_getD_get?, List.getD_eq_getD_get?, List.get?_drop,
    List.get?_take h]

/-- A fully overlapped output sample of the convolution of a constant
signal equals the constant times the kernel sum. -/
theorem convolve_replicate_full (n : ℕ) (c : ℝ) (v : List ℝ) (i : ℕ)
    (hv : 1 ≤ v.length) (h1 : v.length - 1 ≤ i) (h2 : i < n) :
    (convolve (List.replicate n c) v).getD i 0 = c * v.sum := by
  have hi' : i < (convolve (List.replicate n c) v).length := by
    rw [convolve_length, List.length_replicate]
    omega
  rw [List.getD_eq_getElem _ _ hi']
  unfold convolve
  simp only [List.getElem_map, List.getElem_range, List.length_replicate]
  have hcong : ∀ j ∈ Finset.range v.length,
      v.getD j 0 * aget (List.replicate n c) ((i : ℤ) - (j : ℤ)) =
        v.getD j 0 * c := by
    intro j hj
    have hj' : j < v.length := Finset.mem_range.mp hj
    have h0 : 0 ≤ (i : ℤ) - (j : ℤ) := by omega
    have hlt : ((i : ℤ) - (j : ℤ)).toNat < n := by omega
    rw [aget, if_pos h0]
    have hrep : (List.replicate n c).getD ((i : ℤ) - (j : ℤ)).toNat 0 = c := by
      rw [List.getD_eq_getElem (List.replicate n c) 0
        (by rw [List.length_replicate]; exact hlt)]
      exact List.getElem_replicate ..
    rw [hrep]
  rw [Finset.sum_congr rfl hcong, ← Finset.sum_mul, sum_getD_eq_sum]
  ring

theorem npsinc_half : PulseShaper.npsinc (1/2) = 2 / Real.pi := by
  unfold PulseShaper.npsinc
  rw [if_neg (by norm_num)]
  rw [show Real.pi * (1/2) = Real.pi / 2 by ring, Real.sin_pi_div_two]
  rw [eq_div_iff Real.pi_ne_zero]
  field_simp

theorem npsinc_neg_half : PulseShaper.npsinc (-(1/2)) = 2 / Real.pi := by
  unfold PulseShaper.npsinc
  rw [if_neg (by norm_num)]
  rw [show Real.pi * -(1/2) = -(Real.pi / 2) by ring, Real.sin_neg,
    Real.sin_pi_div_two, neg_div_neg_eq]
  rw [eq_div_iff Real.pi_ne_zero]
  field_simp

theorem npsinc_neg_three_halves :
    PulseShaper.npsinc (-(3/2)) = -(2 / (3 * Real.pi)) := by
  unfold PulseShaper.npsinc
  rw [if_neg (by norm_num)]
  rw [show Real.pi * -(3/2) = -(Real.pi / 2 + Real.pi) by ring, Real.sin_neg,
    Real.sin_add_pi, Real.sin_pi_div_two]
  rw [neg_neg, div_neg, neg_inj]
  rw [div_eq_div_iff (by positivity) (by positivity)]
  ring

theorem npHamming_three :
    PulseShaper.npHamming 3 = [0.08, 1, 0.08] := by
  unfold PulseShaper.npHamming
  rw [if_neg (by norm_num), show List.range 3 = [0, 1, 2] from rfl]
  simp only [List.map_cons, List.map_nil]
  have h0 : 2 * Real.pi * ((0 : ℕ) : ℝ) / (((3 : ℕ) : ℝ) - 1) = 0 := by
    push_cast
    norm_num
  have h1 : 2 * Real.pi * ((1 : ℕ) : ℝ) / (((3 : ℕ) : ℝ) - 1) = Real.pi := by
    push_cast
    ring
  have h2 : 2 * Real.pi * ((2 : ℕ) : ℝ) / (((3 : ℕ) : ℝ) - 1) =
      2 * Real.pi := by
    push_cast
    ring
  rw [h0, h1, h2, Real.cos_zero, Real.cos_pi, Real.cos_two_pi]
  norm_num

theorem sincRaw_three :
    PulseShaper.sincDelayRaw 3 (1/2) =
      [-(2 / (3 * Real.pi)) * 0.08, 2 / Real.pi * 1, 2 / Real.pi * 0.08] := by
  unfold PulseShaper.sincDelayRaw
  rw [npHamming_three]
  rw [show PulseShaper.arange (pyFloorDiv (-(((3 : ℕ) : ℤ) - 1)) 2)
      (pyFloorDiv ((3 : ℕ) : ℤ) 2 + 1) = [-1, 0, 1] from by decide]
  simp only [List.zipWith_cons_cons, List.zipWith_nil_right]
  rw [show (((-1 : ℤ) : ℝ) - 1/2) = -(3/2) by push_cast; ring,
    show (((0 : ℤ) : ℝ) - 1/2) = -(1/2) by push_cast; ring,
    show (((1 : ℤ) : ℝ) - 1/2) = (1/2) by push_cast; ring,
    npsinc_neg_three_halves, npsinc_neg_half, npsinc_half]

theorem sincRaw_three_sum :
    (PulseShaper.sincDelayRaw 3 (1/2)).sum = 158 / (75 * Real.pi) := by
  rw [sincRaw_three]
  simp only [List.sum_cons, List.sum_nil]
  rw [eq_div_iff (by positivity : (75 : ℝ) * Real.pi ≠ 0)]
  field_simp
  ring

theorem sincRaw_three_sum_ne : (PulseShaper.sincDelayRaw 3 (1/2)).sum ≠ 0 := by
  rw [sincRaw_three_sum]
  positivity

theorem sincKernel_three :
    PulseShaper.sincDelayKernel 3 (1/2) = [-(2/79), 75/79, 6/79] := by
  unfold PulseShaper.sincDelayKernel
  rw [sincRaw_three_sum, sincRaw_three]
  simp only [List.map_cons, List.map_nil]
  have hpi := Real.pi_ne_zero
  refine congrArg₂ _ ?_ (congrArg₂ _ ?_ (congrArg₂ _ ?_ rfl)) <;>
  · field_simp
    ring

/-- C8 counterexample: tap count 3, delay 1/2, constant signal
`[1, 1, 1]`.  The kernel sums to 1, yet the first trimmed output sample
(where the kernel only partially overlaps the signal) is `73/79`, not 1:
edge trimming removes `(M-1)/2 = 1` sample per side but partial-overlap
positions survive, so the constant is not left unchanged. -/
theorem c8_constant_edge_cex :
    (PulseShaper.fractionaldelay (List.replicate 3 1) none (some (1/2)) 3
      false).getD 0 0 ≠ 1 := by
  have hred : PulseShaper.fractionaldelay (List.replicate 3 (1 : ℝ)) none
      (some (1/2)) 3 false =
      pySlice (convolve (List.replicate 3 (1 : ℝ))
        (PulseShaper.sincDelayKernel 3 (1/2)))
        (pyFloorDiv (((3 : ℕ) : ℤ) - 1) 2)
        (pyFloorDiv (-(((3 : ℕ) : ℤ) - 1)) 2) := by
    simp only [PulseShaper.fractionaldelay]
    rw [if_neg (by norm_num : ¬(1/2 : ℝ) = 0)]
    simp only [Bool.false_eq_true, if_false]
  rw [hred, sincKernel_three]
  have hlen : (convolve (List.replicate 3 (1 : ℝ))
      [-(2/79), 75/79, 6/79]).length = 5 := by
    rw [convolve_length]
    norm_num
  have hfd1 : pyFloorDiv (((3 : ℕ) : ℤ) - 1) 2 = 1 := by decide
  have hfd2 : pyFloorDiv (-(((3 : ℕ) : ℤ) - 1)) 2 = -1 := by decide
  rw [hfd1, hfd2]
  have hb1 : pyBound 5 1 = 1 := by decide
  have hb2 : pyBound 5 (-1) = 4 := by decide
  have hget := pySlice_getD (convolve (List.replicate 3 (1 : ℝ))
    [-(2/79), 75/79, 6/79]) 1 (-1) 0 (by rw [hlen, hb1, hb2]; norm_num)
  rw [hlen, hb1] at hget
  rw [hget]
  have hc : (convolve (List.replicate 3 (1 : ℝ))
      [-(2/79), 75/79, 6/79]).getD (1 + 0) 0 = 73/79 := by
    rw [List.getD_eq_getElem _ 0 (by rw [hlen]; norm_num)]
    unfold convolve
    simp only [List.getElem_map, List.getElem_range]
    rw [show ([-(2/79), 75/79, 6/79] : List ℝ).length = 3 from rfl]
    rw [Finset.sum_range_succ, Finset.sum_range_succ, Finset.sum_range_one]
    norm_num [aget]
  rw [hc]
  norm_num

/-- C8 (amended): for every odd sinc tap count `M ≥ 3`, every fractional
delay in (0,1), and nonzero raw windowed-sinc sum, the normalised
fractional-delay kernel's coefficients sum to exactly 1, and convolving a
constant signal with it (with edge trimming) leaves the constant
unchanged at every output position where the kernel fully overlaps the
signal — positions `j` with `(M-1)/2 ≤ j` and `j + (M-1)/2 < n`.  At the
surviving partial-overlap edge positions the constant is generally
changed (see the counterexample), and for `M = 1` the trimming slice
degenerates to the empty buffer. -/
theorem c8_kernel_sum_and_constant (M : ℕ) (d : ℝ) (n : ℕ) (c : ℝ)
    (hodd : Odd M) (hM : 3 ≤ M) (hd0 : 0 < d) (hd1 : d < 1)
    (hS : (PulseShaper.sincDelayRaw M d).sum ≠ 0) :
    (PulseShaper.sincDelayKernel M d).sum = 1 ∧
    ∀ j, (M - 1) / 2 ≤ j → j + (M - 1) / 2 < n →
      (PulseShaper.fractionaldelay (List.replicate n c) none (some d) M
        false).getD j 0 = c := by
  refine ⟨sincDelayKernel_sum M d hS, ?_⟩
  intro j hj1 hj2
  obtain ⟨t, rfl⟩ := hodd
  have ht1 : 1 ≤ t := by omega
  have htt : (2 * t + 1 - 1) / 2 = t := by omega
  rw [htt] at hj1 hj2
  have hd0' : ¬d = 0 := ne_of_gt hd0
  have hred : PulseShaper.fractionaldelay (List.replicate n c) none
      (some d) (2 * t + 1) false =
      pySlice (convolve (List.replicate n c)
        (PulseShaper.sincDelayKernel (2 * t + 1) d))
        (pyFloorDiv (((2 * t + 1 : ℕ) : ℤ) - 1) 2)
        (pyFloorDiv (-(((2 * t + 1 : ℕ) : ℤ) - 1)) 2) := by
    simp only [PulseShaper.fractionaldelay]
    rw [if_neg hd0']
    simp only [Bool.false_eq_true, if_false]
  rw [hred]
  have hK : (PulseShaper.sincDelayKernel (2 * t + 1) d).length = 2 * t + 1 :=
    sincDelayKernel_length (2 * t + 1) d ⟨t, by ring⟩
  have hconv : (convolve (List.replicate n c)
      (PulseShaper.sincDelayKernel (2 * t + 1) d)).length = n + 2 * t := by
    rw [convolve_length, hK, List.length_replicate]
    omega
  have hfd1 : pyFloorDiv (((2 * t + 1 : ℕ) : ℤ) - 1) 2 = (t : ℤ) := by
    unfold pyFloorDiv
    rw [show (((2 * t + 1 : ℕ) : ℤ) - 1) = 2 * (t : ℤ) by push_cast; ring,
      fdiv_two_mul_left]
  have hfd2 : pyFloorDiv (-(((2 * t + 1 : ℕ) : ℤ) - 1)) 2 = -(t : ℤ) := by
    unfold pyFloorDiv
    rw [show (-(((2 * t + 1 : ℕ) : ℤ) - 1)) = 2 * (-(t : ℤ)) by
        push_cast; ring,
      fdiv_two_mul_left]
  rw [hfd1, hfd2]
  have hb1 : pyBound (n + 2 * t) (t : ℤ) = t := by
    unfold pyBound
    rw [if_neg (by omega)]
    omega
  have hb2 : pyBound (n + 2 * t) (-(t : ℤ)) = n + t := by
    unfold pyBound
    rw [if_pos (by omega)]
    omega
  have hget := pySlice_getD (convolve (List.replicate n c)
    (PulseShaper.sincDelayKernel (2 * t + 1) d)) (t : ℤ) (-(t : ℤ)) j
    (by rw [hconv, hb1, hb2]; omega)
  rw [hconv, hb1] at hget
  rw [hget]
  have hfull := convolve_replicate_full n c
    (PulseShaper.sincDelayKernel (2 * t + 1) d) (t + j)
    (by rw [hK]; omega) (by rw [hK]; omega) (by omega)
  rw [hfull, sincDelayKernel_sum _ _ hS, mul_one]

/-- C8 witness: tap count 3, delay 1/2, nonzero raw sum; the kernel sums
to 1 and the fully overlapped centre sample of a constant-5 signal stays
5. -/
theorem c8_kernel_sum_and_constant_witness :
    Odd 3 ∧ 3 ≤ 3 ∧ (0 : ℝ) < 1/2 ∧ (1/2 : ℝ) < 1 ∧
    (PulseShaper.sincDelayRaw 3 (1/2)).sum ≠ 0 ∧
    (PulseShaper.sincDelayKernel 3 (1/2)).sum = 1 ∧
    (PulseShaper.fractionaldelay (List.replicate 3 5) none (some (1/2)) 3
      false).getD 1 0 = 5 := by
  have h := c8_kernel_sum_and_constant 3 (1/2) 3 5 ⟨1, by norm_num⟩ le_rfl
    (by norm_num) (by norm_num) sincRaw_three_sum_ne
  exact ⟨⟨1, by norm_num⟩, le_rfl, by norm_num, by norm_num,
    sincRaw_three_sum_ne, h.1, h.2 1 (by norm_num) (by norm_num)⟩
